import Mathlib

/-!
Verification of the paginated fixed-width layout engine of the
casper-deploy-generator repository (src/ledger.rs).

Strings are modelled as `List Char` (Rust iterates over `chars()` and counts
characters, not bytes).  Rust panics (`panic!`, `assert!`) are modelled by
`Option`: `none` is an abort.  Everything below `Casper` is a direct
transcription of the Rust source, except the declarations whose doc comment
starts with "Modelled from the spec:", which embed collaborators whose code
is not part of the layout engine (the `hex` crate, the `Sample` type and the
deploy parser/serializer).
-/

namespace Casper

/-- Character limit for Ledger's "label" row (ledger.rs line 11). -/
def LEDGER_VIEW_NAME_CHAR_COUNT : Nat := 11

/-- Character limit for Ledger's value top row (ledger.rs line 13). -/
def LEDGER_VIEW_TOP_ROW_CHAR_COUNT : Nat := 17

/-- Character limit for Ledger's value bottom row (ledger.rs line 15). -/
def LEDGER_VIEW_BOTTOM_CHAR_COUNT : Nat := 17

/-- A single element of the transaction to be displayed in Ledger
(struct `Element`, ledger.rs lines 40-47). -/
structure Element where
  name : List Char
  value : List Char
  expert : Bool
deriving Repr, DecidableEq

/-- One two-row screenful of value payload (struct `LedgerValue`,
ledger.rs lines 103-107). -/
structure LedgerValue where
  top : List Char
  bottom : List Char
deriving Repr, DecidableEq

/-- `LedgerValue::default()`: both rows empty. -/
def LedgerValue.default : LedgerValue := ⟨[], []⟩

/-- `LedgerValue::add_char` (ledger.rs lines 116-126): try the top row,
then the bottom row; returns the updated value and whether the char fit. -/
def LedgerValue.add_char (v : LedgerValue) (c : Char) : LedgerValue × Bool :=
  if v.top.length < LEDGER_VIEW_TOP_ROW_CHAR_COUNT then
    (⟨v.top ++ [c], v.bottom⟩, true)
  else if v.bottom.length < LEDGER_VIEW_BOTTOM_CHAR_COUNT then
    (⟨v.top, v.bottom ++ [c]⟩, true)
  else
    (v, false)

/-- `LedgerValue::into_str` (ledger.rs lines 129-131): concatenate both rows
(also the `Display` instance, lines 134-138). -/
def LedgerValue.into_str (v : LedgerValue) : List Char := v.top ++ v.bottom

/-- Single Ledger page view representation (struct `LedgerPageView`,
ledger.rs lines 147-154). -/
structure LedgerPageView where
  name : List Char
  expert : Bool
  values : List LedgerValue
deriving Repr, DecidableEq

/-- The character loop of `LedgerPageView::from_element`
(ledger.rs lines 166-179).  `none` models a failure of the `assert!` on
line 175. -/
def chunkAux : List Char → LedgerValue → List LedgerValue → Option (List LedgerValue)
  | [], curr_value, values => some (values ++ [curr_value])
  | c :: cs, curr_value, values =>
    match curr_value.add_char c with
    | (updated, true) => chunkAux cs updated values
    | (_, false) =>
      match LedgerValue.default.add_char c with
      | (fresh, true) => chunkAux cs fresh (values ++ [curr_value])
      | (_, false) => none

/-- `LedgerPageView::from_element` (ledger.rs lines 159-186).  `none` models
the `panic!` on an over-long name (lines 160-165) or the `assert!` inside the
loop. -/
def LedgerPageView.from_element (element : Element) : Option LedgerPageView :=
  if element.name.length > LEDGER_VIEW_NAME_CHAR_COUNT then none
  else
    (chunkAux element.value LedgerValue.default []).map
      (fun values => ⟨element.name, element.expert, values⟩)

/-- `LedgerPageView::to_string` (ledger.rs lines 190-208): one line per value
unit, with `[i/n]` tags when the value spans more than one screen. -/
def LedgerPageView.to_string (p : LedgerPageView) : List (List Char) :=
  if p.values.length = 1 then
    [p.name ++ (" : ").toList ++ (p.values.headD LedgerValue.default).into_str]
  else
    p.values.enum.map (fun pr =>
      p.name ++ (" [").toList ++ (Nat.repr (pr.1 + 1)).toList ++ ("/").toList
        ++ (Nat.repr p.values.length).toList ++ ("] : ").toList ++ pr.2.into_str)

/-- struct `LedgerView` (ledger.rs lines 212-214). -/
structure LedgerView where
  pages : List LedgerPageView
deriving Repr, DecidableEq

/-- `LedgerView::to_string` (ledger.rs lines 232-248): filter pages by the
expert flag, enumerate the survivors, and prefix each of a page's rendered
lines with the page's index among the survivors. -/
def LedgerView.to_string (lv : LedgerView) (expert : Bool) : List (List Char) :=
  ((lv.pages.filter (fun page => if !page.expert then true else expert)).enum.map
    (fun pr => pr.2.to_string.map
      (fun page_str => (Nat.repr pr.1).toList ++ (" | ").toList ++ page_str))).flatten

/-- `LedgerView::from_ledger` composed with the element list
(ledger.rs lines 217-223): map `from_element` over the elements, propagating
any panic. -/
def from_elements : List Element → Option (List LedgerPageView)
  | [] => some []
  | e :: es =>
    match LedgerPageView.from_element e, from_elements es with
    | some p, some ps => some (p :: ps)
    | _, _ => none

/-- The full pipeline for one mode: `LedgerView::from_ledger` followed by
`LedgerView::to_string` (`LimitedLedgerView::regular` / `::expert`,
ledger.rs lines 291-297). -/
def assemble (es : List Element) (expert : Bool) : Option (List (List Char)) :=
  (from_elements es).map (fun ps => LedgerView.to_string ⟨ps⟩ expert)

/-- Modelled from the spec: the `Deploy` type is external to the layout
engine; the spec treats deploy serialization (`to_bytes`) and element
extraction (`parser::parse_deploy`) as external collaborators, so a deploy is
represented by its raw bytes and its extracted element list. -/
structure Deploy where
  bytes : List Nat
  elements : List Element

/-- Modelled from the spec: `Sample<Deploy>` (src/sample.rs is not part of
the layout engine); `destructure` yields a label, the deploy and one
validity flag. -/
structure Sample where
  name : List Char
  deploy : Deploy
  valid : Bool

/-- Modelled from the spec: `hex::encode` of the external hex crate —
"standard lowercase hex with no separators or prefix", high nibble first.
`Nat.digitChar` maps 0-15 to '0'-'9', 'a'-'f'. -/
def hexEncode (bytes : List Nat) : List Char :=
  bytes.flatMap (fun b => [Nat.digitChar (b / 16), Nat.digitChar (b % 16)])

/-- struct `ZondaxRepr` (ledger.rs lines 301-311). -/
structure ZondaxRepr where
  index : Nat
  name : List Char
  valid_regular : Bool
  valid_expert : Bool
  testnet : Bool
  blob : List Char
  output : List (List Char)
  output_expert : List (List Char)

/-- `deploy_to_json` (ledger.rs lines 314-335): build the test-vector record
from a sample.  `none` models a panic while paginating the elements. -/
def deploy_to_json (index : Nat) (sample_deploy : Sample) : Option ZondaxRepr :=
  match from_elements sample_deploy.deploy.elements with
  | none => none
  | some pages =>
    some
      { index := index
        name := sample_deploy.name
        valid_regular := sample_deploy.valid
        valid_expert := sample_deploy.valid
        testnet := true
        blob := hexEncode sample_deploy.deploy.bytes
        output := LedgerView.to_string ⟨pages⟩ false
        output_expert := LedgerView.to_string ⟨pages⟩ true }

/-! ### Vocabulary for the claims -/

/-- Concatenation of the (top ++ bottom) text of a unit sequence, in order. -/
def concatUnits (us : List LedgerValue) : List Char :=
  us.flatMap LedgerValue.into_str

/-- A unit is full when both rows are at the 17-character capacity. -/
def LedgerValue.Full (v : LedgerValue) : Prop :=
  v.top.length = 17 ∧ v.bottom.length = 17

/-- Invariant of the chunker's current unit: both rows within capacity, and
the bottom row is only written once the top row is full. -/
def LedgerValue.Inv (v : LedgerValue) : Prop :=
  v.top.length ≤ 17 ∧ v.bottom.length ≤ 17 ∧ (v.bottom ≠ [] → v.top.length = 17)

/-! ### Basic facts about `add_char` -/

theorem LedgerValue.default_add_char (c : Char) :
    LedgerValue.default.add_char c = (⟨[c], []⟩, true) := rfl

theorem LedgerValue.add_char_top {v : LedgerValue} (c : Char)
    (h1 : v.top.length < 17) :
    v.add_char c = (⟨v.top ++ [c], v.bottom⟩, true) := by
  simp [LedgerValue.add_char, LEDGER_VIEW_TOP_ROW_CHAR_COUNT, h1]

theorem LedgerValue.add_char_bottom {v : LedgerValue} (c : Char)
    (h1 : ¬ v.top.length < 17) (h2 : v.bottom.length < 17) :
    v.add_char c = (⟨v.top, v.bottom ++ [c]⟩, true) := by
  simp [LedgerValue.add_char, LEDGER_VIEW_TOP_ROW_CHAR_COUNT,
    LEDGER_VIEW_BOTTOM_CHAR_COUNT, h1, h2]

theorem LedgerValue.add_char_fails {v : LedgerValue} (c : Char)
    (h1 : ¬ v.top.length < 17) (h2 : ¬ v.bottom.length < 17) :
    v.add_char c = (v, false) := by
  simp [LedgerValue.add_char, LEDGER_VIEW_TOP_ROW_CHAR_COUNT,
    LEDGER_VIEW_BOTTOM_CHAR_COUNT, h1, h2]

/-! ### Step equations for the chunker loop -/

theorem chunkAux_cons_top {curr : LedgerValue} (c : Char) (cs : List Char)
    (acc : List LedgerValue) (h1 : curr.top.length < 17) :
    chunkAux (c :: cs) curr acc = chunkAux cs ⟨curr.top ++ [c], curr.bottom⟩ acc := by
  simp only [chunkAux, LedgerValue.add_char_top c h1]

theorem chunkAux_cons_bottom {curr : LedgerValue} (c : Char) (cs : List Char)
    (acc : List LedgerValue) (h1 : ¬ curr.top.length < 17)
    (h2 : curr.bottom.length < 17) :
    chunkAux (c :: cs) curr acc = chunkAux cs ⟨curr.top, curr.bottom ++ [c]⟩ acc := by
  simp only [chunkAux, LedgerValue.add_char_bottom c h1 h2]

theorem chunkAux_cons_full {curr : LedgerValue} (c : Char) (cs : List Char)
    (acc : List LedgerValue) (h1 : ¬ curr.top.length < 17)
    (h2 : ¬ curr.bottom.length < 17) :
    chunkAux (c :: cs) curr acc = chunkAux cs ⟨[c], []⟩ (acc ++ [curr]) := by
  simp only [chunkAux, LedgerValue.add_char_fails c h1 h2,
    LedgerValue.default_add_char]

theorem concatUnits_concat (us : List LedgerValue) (v : LedgerValue) :
    concatUnits (us ++ [v]) = concatUnits us ++ v.top ++ v.bottom := by
  simp [concatUnits, LedgerValue.into_str]

/-- Master invariant of the chunker loop: starting from a well-formed current
unit and an accumulator of full units, the loop succeeds and its output
round-trips the input, respects the row capacities, keeps every unit but the
last full, and has the expected length. -/
theorem chunkAux_spec :
    ∀ (cs : List Char) (curr : LedgerValue) (acc us : List LedgerValue),
    curr.Inv → (∀ u ∈ acc, u.Full) →
    chunkAux cs curr acc = some us →
    concatUnits us = concatUnits acc ++ curr.top ++ curr.bottom ++ cs
    ∧ (∀ u ∈ us, u.top.length ≤ 17 ∧ u.bottom.length ≤ 17)
    ∧ (∀ u ∈ us.dropLast, u.Full)
    ∧ us.length
        = acc.length + 1 + (curr.top.length + curr.bottom.length + cs.length - 1) / 34 := by
  intro cs
  induction cs with
  | nil =>
    intro curr acc us hInv hacc h
    obtain ⟨ht, hb, _⟩ := hInv
    simp only [chunkAux, Option.some.injEq] at h
    subst h
    refine ⟨by simp [concatUnits_concat], ?_, ?_, ?_⟩
    · intro u hu
      rcases List.mem_append.mp hu with hmem | hmem
      · obtain ⟨h1, h2⟩ := hacc u hmem
        omega
      · rw [List.mem_singleton.mp hmem]
        exact ⟨ht, hb⟩
    · rw [List.dropLast_concat]
      exact hacc
    · simp only [List.length_append, List.length_cons, List.length_nil]
      omega
  | cons c cs ih =>
    intro curr acc us hInv hacc h
    obtain ⟨ht, hb, hdisc⟩ := hInv
    by_cases h1 : curr.top.length < 17
    · -- the char fits on the top row; the bottom row is still empty
      have hbot : curr.bottom = [] := by
        by_contra hne
        exact absurd (hdisc hne) (by omega)
      rw [chunkAux_cons_top c cs acc h1] at h
      obtain ⟨hrt, hcap, hfull, hlen⟩ :=
        ih ⟨curr.top ++ [c], curr.bottom⟩ acc us
          ⟨by simp; omega, hb, by simp [hbot]⟩ hacc h
      refine ⟨?_, hcap, hfull, ?_⟩
      · rw [hrt]
        simp [hbot]
      · rw [hlen]
        simp only [List.length_append, List.length_cons, List.length_nil]
        omega
    · by_cases h2 : curr.bottom.length < 17
      · -- the top row is full; the char fits on the bottom row
        rw [chunkAux_cons_bottom c cs acc h1 h2] at h
        obtain ⟨hrt, hcap, hfull, hlen⟩ :=
          ih ⟨curr.top, curr.bottom ++ [c]⟩ acc us
            ⟨ht, by simp; omega, fun _ => by show curr.top.length = 17; omega⟩ hacc h
        refine ⟨?_, hcap, hfull, ?_⟩
        · rw [hrt]
          simp
        · rw [hlen]
          simp only [List.length_append, List.length_cons, List.length_nil]
          omega
      · -- both rows are full: the unit is pushed and a fresh one is started
        rw [chunkAux_cons_full c cs acc h1 h2] at h
        have hcurrFull : curr.Full := ⟨by omega, by omega⟩
        obtain ⟨hrt, hcap, hfull, hlen⟩ :=
          ih ⟨[c], []⟩ (acc ++ [curr]) us
            ⟨by simp, by simp, by simp⟩
            (by
              intro u hu
              rcases List.mem_append.mp hu with hmem | hmem
              · exact hacc u hmem
              · rw [List.mem_singleton.mp hmem]
                exact hcurrFull)
            h
        refine ⟨?_, hcap, hfull, ?_⟩
        · rw [hrt, concatUnits_concat]
          simp
        · rw [hlen]
          simp only [List.length_append, List.length_cons, List.length_nil]
          omega

/-! ### Totality of the chunker and of `from_element` -/

/-- The loop of `from_element` never hits the `assert!`: a character always
fits into a freshly created unit. -/
theorem chunkAux_isSome :
    ∀ (cs : List Char) (curr : LedgerValue) (acc : List LedgerValue),
    (chunkAux cs curr acc).isSome
  | [], _, _ => by simp [chunkAux]
  | c :: cs, curr, acc => by
    by_cases h1 : curr.top.length < 17
    · rw [chunkAux_cons_top c cs acc h1]
      exact chunkAux_isSome cs _ _
    · by_cases h2 : curr.bottom.length < 17
      · rw [chunkAux_cons_bottom c cs acc h1 h2]
        exact chunkAux_isSome cs _ _
      · rw [chunkAux_cons_full c cs acc h1 h2]
        exact chunkAux_isSome cs _ _

/-- Unpacking a successful `from_element`. -/
theorem from_element_some {e : Element} {p : LedgerPageView}
    (h : LedgerPageView.from_element e = some p) :
    e.name.length ≤ LEDGER_VIEW_NAME_CHAR_COUNT ∧ p.name = e.name
    ∧ p.expert = e.expert
    ∧ chunkAux e.value LedgerValue.default [] = some p.values := by
  unfold LedgerPageView.from_element at h
  split at h
  · exact absurd h (by simp)
  · obtain ⟨us, hus, hp⟩ := Option.map_eq_some'.mp h
    subst hp
    exact ⟨by omega, rfl, rfl, hus⟩

/-- `from_element` succeeds on any name within the limit. -/
theorem from_element_total {e : Element}
    (he : e.name.length ≤ LEDGER_VIEW_NAME_CHAR_COUNT) :
    ∃ p, LedgerPageView.from_element e = some p := by
  unfold LedgerPageView.from_element
  have hcond : ¬ e.name.length > LEDGER_VIEW_NAME_CHAR_COUNT := by omega
  rw [if_neg hcond]
  obtain ⟨us, hus⟩ := Option.isSome_iff_exists.mp
    (chunkAux_isSome e.value LedgerValue.default [])
  exact ⟨_, by rw [hus]; rfl⟩

/-- `from_element` fails exactly on an over-long name. -/
theorem from_element_none_iff (e : Element) :
    LedgerPageView.from_element e = none
      ↔ LEDGER_VIEW_NAME_CHAR_COUNT < e.name.length := by
  constructor
  · intro h
    by_contra hlt
    obtain ⟨p, hp⟩ := from_element_total (e := e) (by omega)
    rw [hp] at h
    exact Option.noConfusion h
  · intro h
    unfold LedgerPageView.from_element
    rw [if_pos (by omega)]

/-- `from_elements` fails exactly when some element's name is over-long. -/
theorem from_elements_none_iff :
    ∀ es : List Element,
    from_elements es = none ↔ ∃ x ∈ es, LEDGER_VIEW_NAME_CHAR_COUNT < x.name.length
  | [] => by simp [from_elements]
  | e :: es => by
    rw [from_elements]
    constructor
    · intro h
      rcases he : LedgerPageView.from_element e with _ | p
      · exact ⟨e, by simp, (from_element_none_iff e).mp he⟩
      · rcases hes : from_elements es with _ | ps
        · obtain ⟨x, hx, hlen⟩ := (from_elements_none_iff es).mp hes
          exact ⟨x, by simp [hx], hlen⟩
        · rw [he, hes] at h
          exact absurd h (by simp)
    · intro ⟨x, hx, hlen⟩
      rcases List.mem_cons.mp hx with hx | hx
      · subst hx
        rw [(from_element_none_iff x).mpr hlen]
      · rw [(from_elements_none_iff es).mpr ⟨x, hx, hlen⟩]
        rcases LedgerPageView.from_element e with _ | p <;> rfl

/-- A successful `from_elements` pairs pages with elements one-to-one. -/
theorem from_elements_forall₂ :
    ∀ {es : List Element} {ps : List LedgerPageView},
    from_elements es = some ps →
    List.Forall₂ (fun e p => LedgerPageView.from_element e = some p) es ps
  | [], ps, h => by
    simp only [from_elements, Option.some.injEq] at h
    subst h
    exact List.Forall₂.nil
  | e :: es, ps, h => by
    rw [from_elements] at h
    rcases he : LedgerPageView.from_element e with _ | p <;> rw [he] at h
    · exact Option.noConfusion h
    · rcases hes : from_elements es with _ | ps' <;> rw [hes] at h
      · exact Option.noConfusion h
      · simp only [Option.some.injEq] at h
        subst h
        exact List.Forall₂.cons he (from_elements_forall₂ hes)

/-! ### Facts about the visibility filter -/

theorem filter_pred_expert (l : List LedgerPageView) :
    l.filter (fun page => if !page.expert then true else true) = l := by
  induction l with
  | nil => rfl
  | cons p l ih => cases hp : p.expert <;> simp [List.filter_cons, hp, ih]

theorem filter_pred_regular (l : List LedgerPageView) :
    l.filter (fun page => if !page.expert then true else false)
      = l.filter (fun page => !page.expert) := by
  apply List.filter_congr
  intro p _
  cases hp : p.expert <;> simp [hp]

/-! ### Facts about the modelled hex encoding -/

theorem hexEncode_length :
    ∀ bytes : List Nat, (hexEncode bytes).length = 2 * bytes.length
  | [] => rfl
  | b :: bs => by
    simp only [hexEncode, List.flatMap_cons, List.length_append, List.length_cons,
      List.length_nil, List.length_map]
    have := hexEncode_length bs
    simp only [hexEncode] at this
    omega

theorem digitChar_mem_hex :
    ∀ d < 16, Nat.digitChar d ∈ ("0123456789abcdef").toList := by decide

theorem hexEncode_mem {bytes : List Nat} (hb : ∀ b ∈ bytes, b < 256) :
    ∀ ch ∈ hexEncode bytes, ch ∈ ("0123456789abcdef").toList := by
  intro ch hch
  simp only [hexEncode, List.mem_flatMap] at hch
  obtain ⟨b, hbmem, hcase⟩ := hch
  have hblt := hb b hbmem
  rcases List.mem_cons.mp hcase with hc | hc
  · subst hc
    exact digitChar_mem_hex _ (by omega)
  · rw [List.mem_singleton.mp hc]
    exact digitChar_mem_hex _ (by omega)

/-- The empty unit satisfies the chunker invariant. -/
theorem LedgerValue.default_Inv : LedgerValue.default.Inv :=
  ⟨by simp [LedgerValue.default], by simp [LedgerValue.default],
    fun h => absurd rfl h⟩

/-! ### Concrete fixtures used by the witnesses -/

/-- A small regular element. -/
def wElem : Element := ⟨("To").toList, ("abc").toList, false⟩

/-- The page `from_element` produces for `wElem`. -/
def wPage : LedgerPageView := ⟨("To").toList, false, [⟨("abc").toList, []⟩]⟩

/-! ### The claims -/

/-- Claim C1: round-trip of the value chunker — for every value string,
concatenating the top row followed by the bottom row of every unit produced
by `LedgerPageView.from_element`, in unit order, reproduces the value
exactly. -/
theorem chunker_round_trip (e : Element) (p : LedgerPageView)
    (h : LedgerPageView.from_element e = some p) :
    concatUnits p.values = e.value := by
  obtain ⟨-, -, -, hch⟩ := from_element_some h
  obtain ⟨hrt, -, -, -⟩ :=
    chunkAux_spec e.value LedgerValue.default [] p.values LedgerValue.default_Inv (by simp) hch
  simpa [concatUnits, LedgerValue.default] using hrt

/-- Witness for the round-trip claim at a concrete element. -/
theorem chunker_round_trip_witness :
    concatUnits wPage.values = wElem.value :=
  chunker_round_trip wElem wPage (by rfl)

/-- Claim C2: capacity invariant — every unit produced by the chunker has a
top row of at most 17 characters and a bottom row of at most 17 characters,
and every unit except the last is full (both rows exactly 17). -/
theorem chunker_capacity (e : Element) (p : LedgerPageView)
    (h : LedgerPageView.from_element e = some p) :
    (∀ u ∈ p.values, u.top.length ≤ 17 ∧ u.bottom.length ≤ 17)
    ∧ (∀ u ∈ p.values.dropLast, u.top.length = 17 ∧ u.bottom.length = 17) := by
  obtain ⟨-, -, -, hch⟩ := from_element_some h
  obtain ⟨-, hcap, hfull, -⟩ :=
    chunkAux_spec e.value LedgerValue.default [] p.values LedgerValue.default_Inv (by simp) hch
  exact ⟨hcap, fun u hu => hfull u hu⟩

/-- Witness for the capacity claim at a concrete element. -/
theorem chunker_capacity_witness :
    (∀ u ∈ wPage.values, u.top.length ≤ 17 ∧ u.bottom.length ≤ 17)
    ∧ (∀ u ∈ wPage.values.dropLast, u.top.length = 17 ∧ u.bottom.length = 17) :=
  chunker_capacity wElem wPage (by rfl)

/-- Claim C3: unit count — for a value of character length `L` the chunker
produces `⌈L/34⌉` units (written `(L + 33) / 34` over `Nat`) when `L > 0`,
and a single empty unit when `L = 0`; the output is never empty. -/
theorem chunker_unit_count (e : Element) (p : LedgerPageView)
    (h : LedgerPageView.from_element e = some p) :
    (0 < e.value.length → p.values.length = (e.value.length + 33) / 34)
    ∧ (e.value.length = 0 → p.values.length = 1) := by
  obtain ⟨-, -, -, hch⟩ := from_element_some h
  obtain ⟨-, -, -, hlen⟩ :=
    chunkAux_spec e.value LedgerValue.default [] p.values LedgerValue.default_Inv (by simp) hch
  simp only [LedgerValue.default, List.length_nil] at hlen
  constructor <;> intro hL <;> omega

/-- Witness for the unit-count claim at a concrete element. -/
theorem chunker_unit_count_witness :
    wPage.values.length = (wElem.value.length + 33) / 34 :=
  (chunker_unit_count wElem wPage (by rfl)).1 (by decide)

/-- Claim C4: name-limit enforcement — `from_element` aborts exactly when
the element's name exceeds 11 characters; within the limit it succeeds and
carries the name (and expert flag) unmodified, and pagination over a whole
element list fails only through that same name check. -/
theorem name_limit_enforcement (e : Element) (es : List Element) :
    (LedgerPageView.from_element e = none
      ↔ LEDGER_VIEW_NAME_CHAR_COUNT < e.name.length)
    ∧ (e.name.length ≤ LEDGER_VIEW_NAME_CHAR_COUNT →
        ∃ p, LedgerPageView.from_element e = some p
          ∧ p.name = e.name ∧ p.expert = e.expert)
    ∧ (from_elements es = none
      ↔ ∃ x ∈ es, LEDGER_VIEW_NAME_CHAR_COUNT < x.name.length) := by
  refine ⟨from_element_none_iff e, ?_, from_elements_none_iff es⟩
  intro he
  obtain ⟨p, hp⟩ := from_element_total he
  obtain ⟨-, hname, hexp, -⟩ := from_element_some hp
  exact ⟨p, hp, hname, hexp⟩

/-- Witness for the name-limit claim: an 11-character name succeeds. -/
theorem name_limit_enforcement_witness :
    ∃ p, LedgerPageView.from_element ⟨("Abcdefghijk").toList, ("x").toList, false⟩ = some p
      ∧ p.name = (⟨("Abcdefghijk").toList, ("x").toList, false⟩ : Element).name
      ∧ p.expert = (⟨("Abcdefghijk").toList, ("x").toList, false⟩ : Element).expert :=
  (name_limit_enforcement ⟨("Abcdefghijk").toList, ("x").toList, false⟩ []).2.1 (by decide)

/-- Claim C10: the `assert!` inside the chunker loop can never fail — a
character always fits into a freshly created empty unit — so `from_element`
is total for any element whose name is within the 11-character limit,
regardless of the value's content or length. -/
theorem add_char_assert_safety :
    (∀ (v : LedgerValue) (c : Char), (v.add_char c).2 = false →
        (LedgerValue.default.add_char c).2 = true)
    ∧ (∀ e : Element, e.name.length ≤ LEDGER_VIEW_NAME_CHAR_COUNT →
        ∃ p, LedgerPageView.from_element e = some p) :=
  ⟨fun _ c _ => by rw [LedgerValue.default_add_char], fun _ he => from_element_total he⟩

/-- Witness for the assert-safety claim at a full unit. -/
theorem add_char_assert_safety_witness :
    (LedgerValue.default.add_char 'z').2 = true :=
  add_char_assert_safety.1
    ⟨("01234567890123456").toList, ("01234567890123456").toList⟩ 'z' (by decide)

/-- Claim C5: page rendering format — a single-unit page renders as the one
line `"{name} : {unit}"`; a page with `n > 1` units renders as `n` lines in
unit order, the `i`-th being `"{name} [{i}/{n}] : {unit}"` with `i` starting
at 1; in both forms the unit text is the top row concatenated with the
bottom row with no separator. -/
theorem page_render_format (p : LedgerPageView) :
    (∀ u, p.values = [u] →
        p.to_string = [p.name ++ (" : ").toList ++ (u.top ++ u.bottom)])
    ∧ (1 < p.values.length →
        p.to_string.length = p.values.length
        ∧ ∀ (i : Nat) (hi : i < p.values.length),
            p.to_string.get? i = some (p.name ++ (" [").toList
              ++ (Nat.repr (i + 1)).toList ++ ("/").toList
              ++ (Nat.repr p.values.length).toList ++ ("] : ").toList
              ++ ((p.values.get ⟨i, hi⟩).top ++ (p.values.get ⟨i, hi⟩).bottom))) := by
  constructor
  · intro u hu
    simp [LedgerPageView.to_string, hu, LedgerValue.into_str]
  · intro hlen
    have hne : p.values.length ≠ 1 := by omega
    constructor
    · simp [LedgerPageView.to_string, if_neg hne, List.enum_eq_enumFrom]
    · intro i hi
      rw [List.get?_eq_getElem?]
      simp [LedgerPageView.to_string, if_neg hne, List.enum_eq_enumFrom,
        List.getElem?_enumFrom, List.getElem?_eq_getElem hi,
        LedgerValue.into_str, List.get_eq_getElem]

/-- Witness for the page-render claim at a concrete two-unit page. -/
theorem page_render_format_witness :
    (⟨("To").toList, false,
        [⟨("01234567890123456").toList, ("01234567890123456").toList⟩,
         ⟨("01").toList, []⟩]⟩ : LedgerPageView).to_string.length
      = (⟨("To").toList, false,
          [⟨("01234567890123456").toList, ("01234567890123456").toList⟩,
           ⟨("01").toList, []⟩]⟩ : LedgerPageView).values.length :=
  ((page_render_format _).2 (by decide)).1

/-- Helper for Claim C6: a successful pagination of an all-expert element
list yields only expert pages. -/
theorem from_elements_expert :
    ∀ {es : List Element} {ps : List LedgerPageView},
    List.Forall₂ (fun e p => LedgerPageView.from_element e = some p) es ps →
    (∀ e ∈ es, e.expert = true) → ∀ pg ∈ ps, pg.expert = true := by
  intro es ps hf
  induction hf with
  | nil => intro _ pg hpg; simp at hpg
  | @cons e p es' ps' h₁ h₂ ih =>
    intro hexp pg hpg
    rcases List.mem_cons.mp hpg with hpg | hpg
    · subst hpg
      obtain ⟨-, -, hexpEq, -⟩ := from_element_some h₁
      rw [hexpEq]
      exact hexp e (by simp)
    · exact ih (fun x hx => hexp x (List.mem_cons_of_mem _ hx)) pg hpg

/-- Claim C6: filtering correctness — the regular view is computed from
exactly the non-expert pages, the expert view retains every page, filtering
preserves the original relative order, and an all-expert element list yields
an empty regular output rather than an error. -/
theorem filtering_correctness (lv : LedgerView) (es : List Element) :
    LedgerView.to_string lv false
        = LedgerView.to_string ⟨lv.pages.filter (fun page => !page.expert)⟩ true
    ∧ lv.pages.filter (fun page => if !page.expert then true else true) = lv.pages
    ∧ (lv.pages.filter (fun page => if !page.expert then true else false)).Sublist
        lv.pages
    ∧ ((∀ e ∈ es, e.expert = true) →
        (∀ e ∈ es, e.name.length ≤ LEDGER_VIEW_NAME_CHAR_COUNT) →
        assemble es false = some []) := by
  refine ⟨?_, filter_pred_expert lv.pages, ?_, ?_⟩
  · unfold LedgerView.to_string
    simp only [filter_pred_regular, filter_pred_expert]
  · rw [filter_pred_regular]
    exact List.filter_sublist _
  · intro hexp hnames
    rcases hfe : from_elements es with _ | ps
    · obtain ⟨x, hx, hlen⟩ := (from_elements_none_iff es).mp hfe
      exact absurd (hnames x hx) (by omega)
    · have hps := from_elements_expert (from_elements_forall₂ hfe) hexp
      have hfilter :
          ps.filter (fun page => if !page.expert then true else false) = [] :=
        List.filter_eq_nil_iff.mpr (fun pg hpg => by simp [hps pg hpg])
      unfold assemble
      rw [hfe]
      unfold LedgerView.to_string
      simp only [Option.map_some', hfilter]
      rfl

/-- Witness for the filtering claim with one expert-only element. -/
theorem filtering_correctness_witness :
    assemble [⟨("Id").toList, ("999").toList, true⟩] false = some [] :=
  (filtering_correctness ⟨[]⟩ [⟨("Id").toList, ("999").toList, true⟩]).2.2.2
    (by decide) (by decide)

/-- Claim C7: index stability — the assembled output is the concatenation,
in order, of one block per surviving element: a single block list covers
every survivor index at once, the `i`-th block being exactly the `i`-th
surviving element's rendered lines, each prefixed with `"{i} | "` for that
same 0-based survivor position `i` (and no block beyond the survivors), so
the counter grows by exactly 1 per surviving element no matter how many
lines it spans. -/
theorem index_stability (lv : LedgerView) (expert : Bool) :
    ∃ blocks : List (List (List Char)),
      LedgerView.to_string lv expert = blocks.flatten
      ∧ blocks.length = (lv.pages.filter
          (fun page => if !page.expert then true else expert)).length
      ∧ ∀ i : Nat,
          blocks.get? i = ((lv.pages.filter
              (fun page => if !page.expert then true else expert)).get? i).map
            (fun page => page.to_string.map
              (fun line => (Nat.repr i).toList ++ (" | ").toList ++ line)) := by
  refine ⟨_, rfl, ?_, ?_⟩
  · simp only [List.length_map, List.enum_eq_enumFrom, List.enumFrom_length]
  · intro i
    rw [List.get?_eq_getElem?, List.get?_eq_getElem?]
    simp only [List.enum_eq_enumFrom, List.getElem?_map, List.getElem?_enumFrom,
      Nat.zero_add]
    cases (lv.pages.filter (fun page => if !page.expert then true else expert))[i]? <;>
      rfl

/-- Claim C8: record builder — the produced record copies the sample's
single validity flag into both `valid_regular` and `valid_expert`, sets the
`testnet` flag to the constant `true` (not derived from the transaction),
and sets `blob` to the lowercase hex encoding of the raw transaction bytes
with no separators or prefix. -/
theorem record_builder_fields (index : Nat) (s : Sample) (r : ZondaxRepr)
    (h : deploy_to_json index s = some r)
    (hb : ∀ b ∈ s.deploy.bytes, b < 256) :
    r.valid_regular = s.valid ∧ r.valid_expert = s.valid
    ∧ r.valid_regular = r.valid_expert
    ∧ r.testnet = true
    ∧ r.blob = hexEncode s.deploy.bytes
    ∧ r.blob.length = 2 * s.deploy.bytes.length
    ∧ ∀ ch ∈ r.blob, ch ∈ ("0123456789abcdef").toList := by
  unfold deploy_to_json at h
  split at h
  · exact Option.noConfusion h
  · injection h with h
    subst h
    exact ⟨rfl, rfl, rfl, rfl, rfl, hexEncode_length _, hexEncode_mem hb⟩

/-- A concrete sample for the record-builder witness. -/
def wSample : Sample := ⟨("demo").toList, ⟨[0, 171, 255], [wElem]⟩, true⟩

/-- The record `deploy_to_json` produces for `wSample` at index 0. -/
def wRecord : ZondaxRepr :=
  ⟨0, ("demo").toList, true, true, true, hexEncode [0, 171, 255],
    LedgerView.to_string ⟨[wPage]⟩ false, LedgerView.to_string ⟨[wPage]⟩ true⟩

/-- Witness for the record-builder claim at a concrete sample. -/
theorem record_builder_fields_witness :
    wRecord.valid_regular = wSample.valid ∧ wRecord.valid_expert = wSample.valid
    ∧ wRecord.valid_regular = wRecord.valid_expert
    ∧ wRecord.testnet = true
    ∧ wRecord.blob = hexEncode wSample.deploy.bytes
    ∧ wRecord.blob.length = 2 * wSample.deploy.bytes.length
    ∧ ∀ ch ∈ wRecord.blob, ch ∈ ("0123456789abcdef").toList :=
  record_builder_fields 0 wSample wRecord (by rfl) (by decide)

/-- Counterexample to Claim C9 as stated: the claim's literal value string
has 34 characters (17 "01" pairs), which fits in a single unit, so the code
renders the single untagged line `"0 | To : …"` rather than the two
`[i/2]`-tagged lines the claim expects. -/
theorem end_to_end_example_counterexample :
    assemble [⟨("To").toList,
        ("0101010101010101010101010101010101").toList, false⟩] false
      = some [("0 | To : 0101010101010101010101010101010101").toList]
    ∧ assemble [⟨("To").toList,
        ("0101010101010101010101010101010101").toList, false⟩] false
      ≠ some [("0 | To [1/2] : 0101010101010101010101010101010101").toList,
              ("0 | To [2/2] : 01").toList] := by
  exact ⟨by rfl, by decide⟩

/-- Claim C9 (amended): the single element with name "To" and a 36-character
value of 18 "01" pairs, assembled in Regular mode, yields exactly the lines
`"0 | To [1/2] : <first 34 chars>"` and `"0 | To [2/2] : 01"`. -/
theorem end_to_end_example :
    assemble [⟨("To").toList,
        ("010101010101010101010101010101010101").toList, false⟩] false
      = some [("0 | To [1/2] : 0101010101010101010101010101010101").toList,
              ("0 | To [2/2] : 01").toList] := by
  rfl

end Casper
